import Mathlib

/-!
Verification of the dynamic 2D KD-tree spatial index (spec.md) against a
shallow embedding.  The repository ships only the Python tests, an example
script and `setup.py`; the engine itself (`kdtree.h` compiled through
`kdtree_bindings.cpp`) is not part of the source tree, so the data model and
every operation below are modelled from the specification text (sections 3
and 4 of spec.md), as faithfully as its words allow.
-/

namespace Kdt

/-- Modelled from the spec: `Point` of §3 from the missing `kdtree.h` — an
immutable 2-component coordinate; the integer-coordinate instantiation
(`Pointi` / `KDTreei` in the bindings) is used, with exact component-wise
equality. -/
structure Point where
  x : Int
  y : Int
deriving DecidableEq, Repr

/-- Modelled from the spec: the split-axis projection.  `true` is the x axis
(even depth), `false` the y axis (odd depth). -/
def Point.coord (p : Point) : Bool → Int
  | true => p.x
  | false => p.y

/-- Modelled from the spec: the pluggable distance metric of §2/§4.4 from the
missing `kdtree.h` (`Norm.L1`, `Norm.L2`, `Norm.Linf` in the bindings). -/
inductive Norm where
  | L1
  | L2
  | Linf
deriving DecidableEq, Repr

/-- Modelled from the spec: distance of §4.4.  Squared distance is used
internally for L2 (squaring is monotonic on non-negative reals, so the
reported closest point is unaffected). -/
def dist (nm : Norm) (q p : Point) : Int :=
  match nm with
  | .L1 => |q.x - p.x| + |q.y - p.y|
  | .L2 => (q.x - p.x) ^ 2 + (q.y - p.y) ^ 2
  | .Linf => max |q.x - p.x| |q.y - p.y|

/-- Modelled from the spec: the plane-distance used by the §4.4 pruning test,
an axis gap made comparable with `dist` (squared for L2, since L2 distances
are kept squared internally). -/
def planeDist (nm : Norm) (d : Int) : Int :=
  match nm with
  | .L2 => d ^ 2
  | _ => |d|

/-- Modelled from the spec: the `Node` tree of §3 from the missing
`kdtree.h` — a vertex owns a Point, a payload and at most two children; the
empty tree has no root. -/
inductive KDTree (V : Type) where
  | nil : KDTree V
  | node (l : KDTree V) (v : V) (p : Point) (r : KDTree V) : KDTree V
deriving DecidableEq, Repr

variable {V : Type}

/-- Modelled from the spec: §4.7 iteration — a complete traversal listing
every stored (value, point) pair exactly once (pre-order is the canonical
traversal used for tie-breaking in §4.3). -/
def KDTree.toList : KDTree V → List (V × Point)
  | .nil => []
  | .node l v p r => (v, p) :: (l.toList ++ r.toList)

/-- The points stored in a tree, in canonical traversal order. -/
def pts (t : KDTree V) : List Point :=
  t.toList.map Prod.snd

/-- Modelled from the spec: §4.1 insertion from the missing `kdtree.h`.
Descends comparing the query's coordinate on the current split axis: strictly
less goes left, otherwise right; an exactly equal Point rejects the insert
(tree returned unchanged, `false`); an empty slot receives a fresh leaf
(`true`). -/
def insertAux (v : V) (p : Point) : Bool → KDTree V → KDTree V × Bool
  | _, .nil => (.node .nil v p .nil, true)
  | a, .node l v' p' r =>
    if p = p' then (.node l v' p' r, false)
    else if p.coord a < p'.coord a then
      let res := insertAux v p (!a) l
      (.node res.1 v' p' r, res.2)
    else
      let res := insertAux v p (!a) r
      (.node l v' p' res.1, res.2)

/-- Modelled from the spec: §4.2 exact lookup from the missing `kdtree.h` —
the same axis-alternating descent as insertion, stopping at the first exact
match or at an empty slot. -/
def findAux (p : Point) : Bool → KDTree V → Option (V × Point)
  | _, .nil => none
  | a, .node l v' p' r =>
    if p = p' then some (v', p')
    else if p.coord a < p'.coord a then findAux p (!a) l
    else findAux p (!a) r

/-- Modelled from the spec: the §4.3 subtree minimum on a given axis, ties
broken by preferring the pair reached first in the canonical pre-order
traversal.  `minOn a x xs` is that minimum over the non-empty collection
`x :: xs`. -/
def minOn (a : Bool) (x : V × Point) : List (V × Point) → V × Point
  | [] => x
  | y :: ys =>
    let m := minOn a y ys
    if m.2.coord a < x.2.coord a then m else x

/-- Modelled from the spec: §4.3 deletion from the missing `kdtree.h`.
Locates the node by axis-alternating descent; a pivot with a right child is
replaced by the right subtree's minimum on the pivot's split axis (promoted,
then deleted from its original location); a pivot with only a left child
promotes that subtree's extreme on the split axis and reattaches the
remainder as the *right* child of the promoted node.  §4.3 step 3 names the
*maximum* there, but reattaching the remainder as the right child keeps the
`right ≥ pivot` invariant the same sentence promises only for the *minimum*,
so the minimum is modelled (see `removeLeftMaxStep` for the literal
variant). -/
def removeAux (p : Point) : Bool → KDTree V → KDTree V × Bool
  | _, .nil => (.nil, false)
  | a, .node l v' p' r =>
    if p = p' then
      match r with
      | .node rl rv rp rr =>
        let m := minOn a (rv, rp) (rl.toList ++ rr.toList)
        (.node l m.1 m.2 (removeAux m.2 (!a) (.node rl rv rp rr)).1, true)
      | .nil =>
        match l with
        | .node ll lv lp lr =>
          let m := minOn a (lv, lp) (ll.toList ++ lr.toList)
          (.node .nil m.1 m.2 (removeAux m.2 (!a) (.node ll lv lp lr)).1, true)
        | .nil => (.nil, true)
    else if p.coord a < p'.coord a then
      let res := removeAux p (!a) l
      (.node res.1 v' p' r, res.2)
    else
      let res := removeAux p (!a) r
      (.node l v' p' res.1, res.2)

/-- The §4.3 subtree maximum on a given axis (same tie-break as `minOn`),
used only to state the literal "maximum" reading of §4.3 step 3. -/
def maxOn (a : Bool) (x : V × Point) : List (V × Point) → V × Point
  | [] => x
  | y :: ys =>
    let m := maxOn a y ys
    if x.2.coord a < m.2.coord a then m else x

/-- The literal §4.3 step-3 replacement: promote the left subtree's
*maximum* on the pivot's split axis and reattach the remainder as the right
child.  Stated only to compare with `removeAux`. -/
def removeLeftMaxStep (a : Bool) (ll : KDTree V) (lv : V) (lp : Point)
    (lr : KDTree V) : KDTree V :=
  let m := maxOn a (lv, lp) (ll.toList ++ lr.toList)
  .node .nil m.1 m.2 (removeAux m.2 (!a) (.node ll lv lp lr)).1

/-- Modelled from the spec: §4.4 nearest-neighbour search from the missing
`kdtree.h`.  Branch-and-bound: update the best candidate at the node (ties
keep the earlier-encountered candidate), recurse into the side the query
falls on, then visit the sibling only when the axis gap to the splitting
plane is below the current best distance.  The accumulator is seeded with the
root's own pair by `KD.find_closest`, which leaves the result unchanged. -/
def closestAux (q : Point) (nm : Norm) : Bool → KDTree V → V × Point → V × Point
  | _, .nil, best => best
  | a, .node l v p r, best =>
    let b1 := if dist nm q p < dist nm q best.2 then (v, p) else best
    if q.coord a < p.coord a then
      let b2 := closestAux q nm (!a) l b1
      if planeDist nm (q.coord a - p.coord a) < dist nm q b2.2 then
        closestAux q nm (!a) r b2
      else b2
    else
      let b2 := closestAux q nm (!a) r b1
      if planeDist nm (q.coord a - p.coord a) < dist nm q b2.2 then
        closestAux q nm (!a) l b2
      else b2

/-- Insertion sort of stored pairs by coordinate on one axis, used by the
§4.6 rebuild to select the median of each point subset. -/
def insSorted (a : Bool) (u : V × Point) : List (V × Point) → List (V × Point)
  | [] => [u]
  | x :: xs =>
    if u.2.coord a ≤ x.2.coord a then u :: x :: xs
    else x :: insSorted a u xs

/-- Sort a pair list by coordinate on one axis. -/
def sortOn (a : Bool) : List (V × Point) → List (V × Point)
  | [] => []
  | x :: xs => insSorted a x (sortOn a xs)

theorem length_insSorted (a : Bool) (u : V × Point) (xs : List (V × Point)) :
    (insSorted a u xs).length = xs.length + 1 := by
  induction xs with
  | nil => rfl
  | cons x xs ih =>
    simp only [insSorted]
    split <;> simp [ih]

theorem length_sortOn (a : Bool) (xs : List (V × Point)) :
    (sortOn a xs).length = xs.length := by
  induction xs with
  | nil => rfl
  | cons x xs ih => simp [sortOn, length_insSorted, ih]

theorem length_filter_eraseIdx_lt (f : V × Point → Bool) (y : V × Point)
    (ys : List (V × Point)) :
    (((y :: ys).eraseIdx ((ys.length + 1) / 2)).filter f).length < ys.length + 1 := by
  have h1 := List.length_filter_le f ((y :: ys).eraseIdx ((ys.length + 1) / 2))
  have hm : (ys.length + 1) / 2 < (y :: ys).length := by
    simp only [List.length_cons]
    omega
  have h2 := List.length_eraseIdx_of_lt hm
  simp only [List.length_cons] at h2
  omega

/-- Modelled from the spec: the §4.6 median rebuild from the missing
`kdtree.h`.  Sort the remaining pairs by the current split axis, take the
median as pivot, and recursively build the left subtree from the pairs
strictly below the pivot on that axis and the right subtree from the rest
(ties sit on the right, as the §3 invariant requires). -/
def build (a : Bool) (xs : List (V × Point)) : KDTree V :=
  match h : sortOn a xs with
  | [] => .nil
  | y :: ys =>
    let piv := (y :: ys).getD ((ys.length + 1) / 2) y
    let rest := (y :: ys).eraseIdx ((ys.length + 1) / 2)
    .node (build (!a) (rest.filter (fun u => decide (u.2.coord a < piv.2.coord a))))
      piv.1 piv.2
      (build (!a) (rest.filter (fun u => !decide (u.2.coord a < piv.2.coord a))))
termination_by xs.length
decreasing_by
  all_goals
    have hlen := length_sortOn a xs
    rw [h] at hlen
    simp only [List.length_cons] at hlen
    rw [← hlen]
    exact length_filter_eraseIdx_lt _ y ys

/-- Modelled from the spec: the `Tree` of §3 from the missing `kdtree.h` —
a nullable root plus the denormalized count of stored nodes. -/
structure KD (V : Type) where
  root : KDTree V
  count : Nat
deriving Repr

/-- Modelled from the spec: a freshly constructed, empty tree. -/
def KD.new : KD V := ⟨.nil, 0⟩

/-- Modelled from the spec: §4.1 `insert(value, point) -> bool`; the count is
incremented only on success. -/
def KD.insert (s : KD V) (v : V) (p : Point) : KD V × Bool :=
  let res := insertAux v p true s.root
  (⟨res.1, if res.2 then s.count + 1 else s.count⟩, res.2)

/-- Modelled from the spec: §4.2 `find(point) -> optional(value, point)`. -/
def KD.find (s : KD V) (p : Point) : Option (V × Point) :=
  findAux p true s.root

/-- Modelled from the spec: §4.2 `exists(point) -> bool`. -/
def KD.existsPt (s : KD V) (p : Point) : Bool :=
  (s.find p).isSome

/-- Modelled from the spec: §4.3 `remove(point) -> bool`; decrements the
count on success. -/
def KD.remove (s : KD V) (p : Point) : KD V × Bool :=
  let res := removeAux p true s.root
  (⟨res.1, if res.2 then s.count - 1 else s.count⟩, res.2)

/-- Modelled from the spec: §4.4 `find_closest(query, metric)`; the empty
tree yields nothing, otherwise the branch-and-bound search runs seeded with
the root's own pair. -/
def KD.find_closest (s : KD V) (q : Point) (nm : Norm) : Option (V × Point) :=
  match s.root with
  | .nil => none
  | .node l v p r => some (closestAux q nm true (.node l v p r) (v, p))

/-- Modelled from the spec: §4.5 `pop_closest(query, metric)` — the §4.4
search followed by §4.3 deletion of the found point, returning the removed
pair. -/
def KD.pop_closest (s : KD V) (q : Point) (nm : Norm) : KD V × Option (V × Point) :=
  match s.find_closest q nm with
  | none => (s, none)
  | some u => ((s.remove u.2).1, some u)

/-- Modelled from the spec: §4.6 `rebalance()` — collect every stored pair
and rebuild by recursive median selection; the stored content (hence the
count) is untouched. -/
def KD.rebalance (s : KD V) : KD V :=
  ⟨build true s.root.toList, s.count⟩

/-- Modelled from the spec: §4.7 `size()` reads the denormalized count. -/
def KD.size (s : KD V) : Nat := s.count

/-- Modelled from the spec: §4.7 `empty()`. -/
def KD.empty (s : KD V) : Bool := s.count == 0

/-- Modelled from the spec: §4.7 `clear()` destroys every node and resets
the size to zero. -/
def KD.clear (_ : KD V) : KD V := ⟨.nil, 0⟩

/-- Modelled from the spec: §4.7 iteration — one full pass over all stored
(value, point) pairs. -/
def KD.iterate (s : KD V) : List (V × Point) := s.root.toList

/-- The §3 partition invariant: at a node with split axis `a`, every left
point is strictly below the node's coordinate on `a`, every right point at
or above it, recursively with alternating axes. -/
def Inv : Bool → KDTree V → Prop
  | _, .nil => True
  | a, .node l _ p r =>
    (∀ s ∈ pts l, s.coord a < p.coord a) ∧
    (∀ s ∈ pts r, p.coord a ≤ s.coord a) ∧
    Inv (!a) l ∧ Inv (!a) r

instance instDecInv : (a : Bool) → (t : KDTree V) → Decidable (Inv a t)
  | _, .nil => .isTrue trivial
  | a, .node l _ p r =>
    haveI := instDecInv (!a) l
    haveI := instDecInv (!a) r
    inferInstanceAs (Decidable ((∀ s ∈ pts l, s.coord a < p.coord a) ∧
      (∀ s ∈ pts r, p.coord a ≤ s.coord a) ∧ Inv (!a) l ∧ Inv (!a) r))

/-- The full structural invariant of a tree state: §3 partition ordering,
exact-coordinate uniqueness, and consistency of the denormalized count. -/
def Good (s : KD V) : Prop :=
  Inv true s.root ∧ (pts s.root).Nodup ∧ s.count = s.root.toList.length

instance (s : KD V) : Decidable (Good s) := by
  unfold Good
  infer_instance

/-- Tree states reachable from a fresh tree through the public mutating
operations (§4 insert, remove, pop_closest, rebalance, clear). -/
inductive Reachable : KD V → Prop where
  | init : Reachable KD.new
  | insert (s : KD V) (v : V) (p : Point) :
      Reachable s → Reachable (s.insert v p).1
  | remove (s : KD V) (p : Point) :
      Reachable s → Reachable (s.remove p).1
  | pop (s : KD V) (q : Point) (nm : Norm) :
      Reachable s → Reachable (s.pop_closest q nm).1
  | rebalance (s : KD V) : Reachable s → Reachable s.rebalance
  | clear (s : KD V) : Reachable s → Reachable s.clear

/-- Modelled from the spec: the §6 binding layer (the missing
`kdtree_bindings.cpp`) accepts a point as a pair, a sequence, an explicit
`Point`, or two separate coordinates; every form denotes one `Point`. -/
inductive PointArg where
  | pair (x y : Int)
  | seq (x y : Int)
  | pt (p : Point)
  | coords (x y : Int)
deriving DecidableEq, Repr

/-- Modelled from the spec: the §6 conversion from any accepted call form to
the `Point` the engine receives. -/
def PointArg.toPoint : PointArg → Point
  | .pair x y => ⟨x, y⟩
  | .seq x y => ⟨x, y⟩
  | .pt p => p
  | .coords x y => ⟨x, y⟩

/-- Binding-layer wrapper of §4.1 insert taking any accepted point form. -/
def KD.insertA (s : KD V) (v : V) (g : PointArg) : KD V × Bool :=
  s.insert v g.toPoint

/-- Binding-layer wrapper of §4.2 find taking any accepted point form. -/
def KD.findA (s : KD V) (g : PointArg) : Option (V × Point) :=
  s.find g.toPoint

/-- Binding-layer wrapper of §4.2 exists taking any accepted point form. -/
def KD.existsA (s : KD V) (g : PointArg) : Bool :=
  s.existsPt g.toPoint

/-- Binding-layer wrapper of §4.3 remove taking any accepted point form. -/
def KD.removeA (s : KD V) (g : PointArg) : KD V × Bool :=
  s.remove g.toPoint

/-- Binding-layer wrapper of §4.4 find_closest taking any accepted form. -/
def KD.find_closestA (s : KD V) (g : PointArg) (nm : Norm) : Option (V × Point) :=
  s.find_closest g.toPoint nm

/-- Binding-layer wrapper of §4.5 pop_closest taking any accepted form. -/
def KD.pop_closestA (s : KD V) (g : PointArg) (nm : Norm) : KD V × Option (V × Point) :=
  s.pop_closest g.toPoint nm

/-! Basic facts about traversal lists. -/

@[simp] theorem toList_nil : (KDTree.nil : KDTree V).toList = [] := rfl

@[simp] theorem toList_node (l : KDTree V) (v : V) (p : Point) (r : KDTree V) :
    (KDTree.node l v p r).toList = (v, p) :: (l.toList ++ r.toList) := rfl

@[simp] theorem pts_nil : pts (KDTree.nil : KDTree V) = [] := rfl

@[simp] theorem pts_node (l : KDTree V) (v : V) (p : Point) (r : KDTree V) :
    pts (KDTree.node l v p r) = p :: (pts l ++ pts r) := by
  simp [pts]

theorem snd_mem_pts {u : V × Point} {t : KDTree V} (h : u ∈ t.toList) :
    u.2 ∈ pts t :=
  List.mem_map_of_mem Prod.snd h

theorem mem_pts_iff {s : Point} {t : KDTree V} :
    s ∈ pts t ↔ ∃ u ∈ t.toList, u.2 = s := by
  simp [pts, List.mem_map]

/-- Permutation juggling: replace the left block of a cons-append by a
permuted copy and lift its head to the front. -/
theorem perm_cons_append_left {u w : V × Point} {L L' R : List (V × Point)}
    (hL : List.Perm L (u :: L')) :
    List.Perm (w :: (L ++ R)) (u :: w :: (L' ++ R)) :=
  ((hL.append_right R).cons w).trans (List.Perm.swap u w (L' ++ R))

/-- Permutation juggling: same on the right block. -/
theorem perm_cons_append_right {u w : V × Point} {L R R' : List (V × Point)}
    (hR : List.Perm R (u :: R')) :
    List.Perm (w :: (L ++ R)) (u :: w :: (L ++ R')) :=
  (((hR.append_left L).cons w).trans ((List.perm_middle).cons w)).trans
    (List.Perm.swap u w (L ++ R'))

/-! Facts about the axis extremum selectors. -/

theorem minOn_mem (a : Bool) (x : V × Point) (xs : List (V × Point)) :
    minOn a x xs ∈ x :: xs := by
  induction xs generalizing x with
  | nil => simp [minOn]
  | cons y ys ih =>
    simp only [minOn]
    split
    · exact List.mem_cons_of_mem x (ih y)
    · exact List.mem_cons_self x _

theorem minOn_le (a : Bool) (x : V × Point) (xs : List (V × Point)) :
    ∀ u ∈ x :: xs, (minOn a x xs).2.coord a ≤ u.2.coord a := by
  induction xs generalizing x with
  | nil =>
    intro u hu
    simp only [List.mem_singleton] at hu
    simp [minOn, hu]
  | cons y ys ih =>
    intro u hu
    rcases List.mem_cons.mp hu with hu | hu
    · subst hu
      simp only [minOn]
      split
      · next hlt => exact le_of_lt hlt
      · exact le_refl _
    · have hy := ih y u hu
      simp only [minOn]
      split
      · exact hy
      · next hlt => exact le_trans (not_lt.mp hlt) hy

/-! Facts about distances and the pruning plane distance. -/

theorem dist_nonneg (nm : Norm) (q p : Point) : 0 ≤ dist nm q p := by
  cases nm <;> simp [dist] <;> positivity

theorem planeDist_le_dist (nm : Norm) (q p : Point) (a : Bool) :
    planeDist nm (q.coord a - p.coord a) ≤ dist nm q p := by
  cases nm <;> cases a <;> simp only [planeDist, dist, Point.coord] <;>
    first
      | exact le_add_of_nonneg_right (abs_nonneg _)
      | exact le_add_of_nonneg_left (abs_nonneg _)
      | exact le_add_of_nonneg_right (sq_nonneg _)
      | exact le_add_of_nonneg_left (sq_nonneg _)
      | exact le_max_left _ _
      | exact le_max_right _ _

theorem planeDist_mono (nm : Norm) {d e : Int} (h : |d| ≤ |e|) :
    planeDist nm d ≤ planeDist nm e := by
  cases nm <;> simp only [planeDist]
  · exact h
  · calc d ^ 2 = |d| ^ 2 := (sq_abs d).symm
      _ ≤ |e| ^ 2 := pow_le_pow_left₀ (abs_nonneg d) h 2
      _ = e ^ 2 := sq_abs e
  · exact h

/-! Exact lookup: characterisation under the partition invariant. -/

theorem findAux_some {p : Point} {a : Bool} {t : KDTree V} {v : V} {s : Point}
    (h : findAux p a t = some (v, s)) : s = p ∧ (v, s) ∈ t.toList := by
  induction t generalizing a with
  | nil => simp [findAux] at h
  | node l v' p' r ihl ihr =>
    simp only [findAux] at h
    by_cases hp : p = p'
    · rw [if_pos hp] at h
      simp only [Option.some.injEq, Prod.mk.injEq] at h
      obtain ⟨rfl, rfl⟩ := h
      exact ⟨hp.symm, by simp⟩
    · rw [if_neg hp] at h
      by_cases hlt : p.coord a < p'.coord a
      · rw [if_pos hlt] at h
        obtain ⟨hs, hm⟩ := ihl h
        exact ⟨hs, by simp [hm]⟩
      · rw [if_neg hlt] at h
        obtain ⟨hs, hm⟩ := ihr h
        exact ⟨hs, by simp [hm]⟩

theorem findAux_not_mem {p : Point} {a : Bool} {t : KDTree V} (hm : p ∉ pts t) :
    findAux p a t = none := by
  induction t generalizing a with
  | nil => rfl
  | node l v' p' r ihl ihr =>
    simp only [pts_node, List.mem_cons, List.mem_append] at hm
    push_neg at hm
    obtain ⟨hp, hl, hr⟩ := hm
    simp only [findAux, if_neg hp]
    split
    · exact ihl hl
    · exact ihr hr

theorem findAux_mem {p : Point} {a : Bool} {t : KDTree V}
    (h : Inv a t) (hm : p ∈ pts t) :
    ∃ v, findAux p a t = some (v, p) ∧ (v, p) ∈ t.toList := by
  induction t generalizing a with
  | nil => simp [pts] at hm
  | node l v' p' r ihl ihr =>
    obtain ⟨hbl, hbr, hil, hir⟩ := h
    by_cases hp : p = p'
    · exact ⟨v', by simp [findAux, hp], by simp [hp]⟩
    · simp only [pts_node, List.mem_cons, List.mem_append] at hm
      rcases hm with hm | hm | hm
      · exact absurd hm hp
      · have hlt : p.coord a < p'.coord a := hbl p hm
        obtain ⟨v, hfind, hmem⟩ := ihl hil hm
        exact ⟨v, by simp [findAux, if_neg hp, if_pos hlt, hfind], by simp [hmem]⟩
      · have hge : p'.coord a ≤ p.coord a := hbr p hm
        have hnlt : ¬ p.coord a < p'.coord a := not_lt.mpr hge
        obtain ⟨v, hfind, hmem⟩ := ihr hir hm
        exact ⟨v, by simp [findAux, if_neg hp, if_neg hnlt, hfind], by simp [hmem]⟩

/-- With exact-coordinate uniqueness, a point determines its stored value. -/
theorem eq_of_mem_of_nodup_snd {xs : List (V × Point)} {v w : V} {p : Point}
    (h : (xs.map Prod.snd).Nodup) (h1 : (v, p) ∈ xs) (h2 : (w, p) ∈ xs) :
    v = w := by
  induction xs with
  | nil => simp at h1
  | cons u us ih =>
    simp only [List.map_cons, List.nodup_cons] at h
    rcases List.mem_cons.mp h1 with h1 | h1 <;>
      rcases List.mem_cons.mp h2 with h2 | h2
    · rw [← h1] at h2
      exact congrArg Prod.fst h2.symm
    · exfalso
      rw [← h1] at h
      exact h.1 (by simpa using List.mem_map_of_mem Prod.snd h2)
    · exfalso
      rw [← h2] at h
      exact h.1 (by simpa using List.mem_map_of_mem Prod.snd h1)
    · exact ih h.2 h1 h2

theorem findAux_value {p : Point} {a : Bool} {t : KDTree V} {v : V}
    (h : Inv a t) (hnd : (pts t).Nodup) (hm : (v, p) ∈ t.toList) :
    findAux p a t = some (v, p) := by
  obtain ⟨w, hfind, hmem⟩ := findAux_mem h (snd_mem_pts hm)
  rwa [eq_of_mem_of_nodup_snd hnd hm hmem]

/-! Insertion lemmas. -/

theorem insertAux_mem {p : Point} {a : Bool} {t : KDTree V} (v : V)
    (h : Inv a t) (hm : p ∈ pts t) : insertAux v p a t = (t, false) := by
  induction t generalizing a with
  | nil => simp [pts] at hm
  | node l v' p' r ihl ihr =>
    obtain ⟨hbl, hbr, hil, hir⟩ := h
    by_cases hp : p = p'
    · simp [insertAux, hp]
    · simp only [pts_node, List.mem_cons, List.mem_append] at hm
      rcases hm with hm | hm | hm
      · exact absurd hm hp
      · have hlt : p.coord a < p'.coord a := hbl p hm
        simp [insertAux, if_neg hp, if_pos hlt, ihl hil hm]
      · have hnlt : ¬ p.coord a < p'.coord a := not_lt.mpr (hbr p hm)
        simp [insertAux, if_neg hp, if_neg hnlt, ihr hir hm]

theorem insertAux_not_mem {p : Point} {a : Bool} {t : KDTree V} (v : V)
    (hm : p ∉ pts t) :
    (insertAux v p a t).2 = true ∧
      List.Perm (insertAux v p a t).1.toList ((v, p) :: t.toList) := by
  induction t generalizing a with
  | nil => exact ⟨rfl, by simp [insertAux]⟩
  | node l v' p' r ihl ihr =>
    simp only [pts_node, List.mem_cons, List.mem_append] at hm
    push_neg at hm
    obtain ⟨hp, hl, hr⟩ := hm
    by_cases hlt : p.coord a < p'.coord a
    · obtain ⟨hb, hperm⟩ := @ihl (!a) hl
      refine ⟨by simp [insertAux, if_neg hp, if_pos hlt, hb], ?_⟩
      simp only [insertAux, if_neg hp, if_pos hlt, toList_node]
      exact perm_cons_append_left hperm
    · obtain ⟨hb, hperm⟩ := @ihr (!a) hr
      refine ⟨by simp [insertAux, if_neg hp, if_neg hlt, hb], ?_⟩
      simp only [insertAux, if_neg hp, if_neg hlt, toList_node]
      exact perm_cons_append_right hperm

theorem pts_insertAux_subset (v : V) (p : Point) (a : Bool) (t : KDTree V) :
    pts (insertAux v p a t).1 ⊆ p :: pts t := by
  induction t generalizing a with
  | nil => simp [insertAux, pts]
  | node l v' p' r ihl ihr =>
    by_cases hp : p = p'
    · simp only [insertAux, if_pos hp]
      intro s hs
      exact List.mem_cons_of_mem p hs
    · by_cases hlt : p.coord a < p'.coord a
      · simp only [insertAux, if_neg hp, if_pos hlt, pts_node]
        intro s hs
        rcases List.mem_cons.mp hs with hs | hs
        · simp [hs]
        · rcases List.mem_append.mp hs with hs | hs
          · rcases List.mem_cons.mp (ihl (!a) hs) with hs | hs <;> simp [hs]
          · simp [hs]
      · simp only [insertAux, if_neg hp, if_neg hlt, pts_node]
        intro s hs
        rcases List.mem_cons.mp hs with hs | hs
        · simp [hs]
        · rcases List.mem_append.mp hs with hs | hs
          · simp [hs]
          · rcases List.mem_cons.mp (ihr (!a) hs) with hs | hs <;> simp [hs]

theorem insertAux_inv {a : Bool} {t : KDTree V} (v : V) (p : Point)
    (h : Inv a t) : Inv a (insertAux v p a t).1 := by
  induction t generalizing a with
  | nil => exact ⟨by simp [pts], by simp [pts], trivial, trivial⟩
  | node l v' p' r ihl ihr =>
    obtain ⟨hbl, hbr, hil, hir⟩ := h
    by_cases hp : p = p'
    · simp only [insertAux, if_pos hp]
      exact ⟨hbl, hbr, hil, hir⟩
    · by_cases hlt : p.coord a < p'.coord a
      · simp only [insertAux, if_neg hp, if_pos hlt]
        refine ⟨?_, hbr, ihl hil, hir⟩
        intro s hs
        rcases List.mem_cons.mp (pts_insertAux_subset v p (!a) l hs) with hs | hs
        · rw [hs]; exact hlt
        · exact hbl s hs
      · simp only [insertAux, if_neg hp, if_neg hlt]
        refine ⟨hbl, ?_, hil, ihr hir⟩
        intro s hs
        rcases List.mem_cons.mp (pts_insertAux_subset v p (!a) r hs) with hs | hs
        · rw [hs]; exact not_lt.mp hlt
        · exact hbr s hs

/-! Deletion lemmas. -/

theorem toList_removeAux_subset (p : Point) (a : Bool) (t : KDTree V) :
    (removeAux p a t).1.toList ⊆ t.toList := by
  induction t generalizing p a with
  | nil => simp [removeAux]
  | node l v' p' r ihl ihr =>
    by_cases hp : p = p'
    · cases r with
      | node rl rv rp rr =>
        have hres : removeAux p a (KDTree.node l v' p' (KDTree.node rl rv rp rr)) =
            (.node l (minOn a (rv, rp) (rl.toList ++ rr.toList)).1
              (minOn a (rv, rp) (rl.toList ++ rr.toList)).2
              (removeAux (minOn a (rv, rp) (rl.toList ++ rr.toList)).2 (!a)
                (.node rl rv rp rr)).1, true) := by
          rw [removeAux.eq_def]
          simp only [if_pos hp]
        rw [hres]
        simp only [toList_node]
        refine List.cons_subset.mpr ⟨?_, List.append_subset.mpr ⟨?_, ?_⟩⟩
        · exact List.mem_cons_of_mem _
            (List.mem_append_right _ (minOn_mem a (rv, rp) (rl.toList ++ rr.toList)))
        · intro u hu
          exact List.mem_cons_of_mem _ (List.mem_append_left _ hu)
        · intro u hu
          exact List.mem_cons_of_mem _ (List.mem_append_right _ (ihr _ _ hu))
      | nil =>
        cases l with
        | node ll lv lp lr =>
          have hres : removeAux p a (KDTree.node (KDTree.node ll lv lp lr) v' p' .nil) =
              (.node .nil (minOn a (lv, lp) (ll.toList ++ lr.toList)).1
                (minOn a (lv, lp) (ll.toList ++ lr.toList)).2
                (removeAux (minOn a (lv, lp) (ll.toList ++ lr.toList)).2 (!a)
                  (.node ll lv lp lr)).1, true) := by
            rw [removeAux.eq_def]
            simp only [if_pos hp]
          rw [hres]
          simp only [toList_node, toList_nil, List.nil_append]
          refine List.cons_subset.mpr ⟨?_, ?_⟩
          · exact List.mem_cons_of_mem _
              (List.mem_append_left _ (minOn_mem a (lv, lp) (ll.toList ++ lr.toList)))
          · intro u hu
            exact List.mem_cons_of_mem _ (List.mem_append_left _ (ihl _ _ hu))
        | nil =>
          have hres : removeAux p a (KDTree.node .nil v' p' .nil) = (.nil, true) := by
            rw [removeAux.eq_def]
            simp only [if_pos hp]
          rw [hres]
          simp
    · by_cases hlt : p.coord a < p'.coord a
      · have hres : removeAux p a (KDTree.node l v' p' r) =
            (.node (removeAux p (!a) l).1 v' p' r, (removeAux p (!a) l).2) := by
          rw [removeAux.eq_def]
          simp only [if_neg hp, if_pos hlt]
        rw [hres]
        simp only [toList_node]
        refine List.cons_subset.mpr ⟨List.mem_cons_self _ _, List.append_subset.mpr ⟨?_, ?_⟩⟩
        · intro u hu
          exact List.mem_cons_of_mem _ (List.mem_append_left _ (ihl _ _ hu))
        · intro u hu
          exact List.mem_cons_of_mem _ (List.mem_append_right _ hu)
      · have hres : removeAux p a (KDTree.node l v' p' r) =
            (.node l v' p' (removeAux p (!a) r).1, (removeAux p (!a) r).2) := by
          rw [removeAux.eq_def]
          simp only [if_neg hp, if_neg hlt]
        rw [hres]
        simp only [toList_node]
        refine List.cons_subset.mpr ⟨List.mem_cons_self _ _, List.append_subset.mpr ⟨?_, ?_⟩⟩
        · intro u hu
          exact List.mem_cons_of_mem _ (List.mem_append_left _ hu)
        · intro u hu
          exact List.mem_cons_of_mem _ (List.mem_append_right _ (ihr _ _ hu))

theorem snd_mem_pts_of_subset {t t' : KDTree V} {s : Point}
    (hsub : t'.toList ⊆ t.toList) (hs : s ∈ pts t') : s ∈ pts t := by
  obtain ⟨u, hu, rfl⟩ := mem_pts_iff.mp hs
  exact snd_mem_pts (hsub hu)

theorem removeAux_inv (p : Point) {a : Bool} {t : KDTree V}
    (h : Inv a t) : Inv a (removeAux p a t).1 := by
  induction t generalizing p a with
  | nil => exact trivial
  | node l v' p' r ihl ihr =>
    obtain ⟨hbl, hbr, hil, hir⟩ := h
    by_cases hp : p = p'
    · cases r with
      | node rl rv rp rr =>
        have hres : removeAux p a (KDTree.node l v' p' (KDTree.node rl rv rp rr)) =
            (.node l (minOn a (rv, rp) (rl.toList ++ rr.toList)).1
              (minOn a (rv, rp) (rl.toList ++ rr.toList)).2
              (removeAux (minOn a (rv, rp) (rl.toList ++ rr.toList)).2 (!a)
                (.node rl rv rp rr)).1, true) := by
          rw [removeAux.eq_def]
          simp only [if_pos hp]
        rw [hres]
        refine ⟨?_, ?_, hil, ihr _ hir⟩
        · intro s hs
          exact lt_of_lt_of_le (hbl s hs)
            (hbr _ (snd_mem_pts (minOn_mem a (rv, rp) (rl.toList ++ rr.toList))))
        · intro s hs
          obtain ⟨u, hu, rfl⟩ := mem_pts_iff.mp hs
          exact minOn_le a (rv, rp) (rl.toList ++ rr.toList) u
            (toList_removeAux_subset _ _ _ hu)
      | nil =>
        cases l with
        | node ll lv lp lr =>
          have hres : removeAux p a (KDTree.node (KDTree.node ll lv lp lr) v' p' .nil) =
              (.node .nil (minOn a (lv, lp) (ll.toList ++ lr.toList)).1
                (minOn a (lv, lp) (ll.toList ++ lr.toList)).2
                (removeAux (minOn a (lv, lp) (ll.toList ++ lr.toList)).2 (!a)
                  (.node ll lv lp lr)).1, true) := by
            rw [removeAux.eq_def]
            simp only [if_pos hp]
          rw [hres]
          refine ⟨by simp, ?_, trivial, ihl _ hil⟩
          intro s hs
          obtain ⟨u, hu, rfl⟩ := mem_pts_iff.mp hs
          exact minOn_le a (lv, lp) (ll.toList ++ lr.toList) u
            (toList_removeAux_subset _ _ _ hu)
        | nil =>
          have hres : removeAux p a (KDTree.node .nil v' p' .nil) = (.nil, true) := by
            rw [removeAux.eq_def]
            simp only [if_pos hp]
          rw [hres]
          exact trivial
    · by_cases hlt : p.coord a < p'.coord a
      · have hres : removeAux p a (KDTree.node l v' p' r) =
            (.node (removeAux p (!a) l).1 v' p' r, (removeAux p (!a) l).2) := by
          rw [removeAux.eq_def]
          simp only [if_neg hp, if_pos hlt]
        rw [hres]
        refine ⟨?_, hbr, ihl _ hil, hir⟩
        intro s hs
        exact hbl s (snd_mem_pts_of_subset (toList_removeAux_subset _ _ _) hs)
      · have hres : removeAux p a (KDTree.node l v' p' r) =
            (.node l v' p' (removeAux p (!a) r).1, (removeAux p (!a) r).2) := by
          rw [removeAux.eq_def]
          simp only [if_neg hp, if_neg hlt]
        rw [hres]
        refine ⟨hbl, ?_, hil, ihr _ hir⟩
        intro s hs
        exact hbr s (snd_mem_pts_of_subset (toList_removeAux_subset _ _ _) hs)

theorem removeAux_not_mem {p : Point} {a : Bool} {t : KDTree V}
    (hm : p ∉ pts t) : removeAux p a t = (t, false) := by
  induction t generalizing p a with
  | nil => rfl
  | node l v' p' r ihl ihr =>
    simp only [pts_node, List.mem_cons, List.mem_append] at hm
    push_neg at hm
    obtain ⟨hp, hl, hr⟩ := hm
    by_cases hlt : p.coord a < p'.coord a
    · have hres : removeAux p a (KDTree.node l v' p' r) =
          (.node (removeAux p (!a) l).1 v' p' r, (removeAux p (!a) l).2) := by
        rw [removeAux.eq_def]
        simp only [if_neg hp, if_pos hlt]
      rw [hres, ihl hl]
    · have hres : removeAux p a (KDTree.node l v' p' r) =
          (.node l v' p' (removeAux p (!a) r).1, (removeAux p (!a) r).2) := by
        rw [removeAux.eq_def]
        simp only [if_neg hp, if_neg hlt]
      rw [hres, ihr hr]

theorem removeAux_mem {p : Point} {a : Bool} {t : KDTree V}
    (h : Inv a t) (hnd : (pts t).Nodup) (hm : p ∈ pts t) :
    ∃ v, (v, p) ∈ t.toList ∧ (removeAux p a t).2 = true ∧
      List.Perm t.toList ((v, p) :: (removeAux p a t).1.toList) := by
  induction t generalizing p a with
  | nil => simp [pts] at hm
  | node l v' p' r ihl ihr =>
    obtain ⟨hbl, hbr, hil, hir⟩ := h
    have hnd' : p' ∉ pts l ++ pts r ∧ (pts l ++ pts r).Nodup :=
      List.nodup_cons.mp (by simpa using hnd)
    have hndl : (pts l).Nodup := hnd'.2.of_append_left
    have hndr : (pts r).Nodup := hnd'.2.of_append_right
    by_cases hp : p = p'
    · cases r with
      | node rl rv rp rr =>
        have hres : removeAux p a (KDTree.node l v' p' (KDTree.node rl rv rp rr)) =
            (.node l (minOn a (rv, rp) (rl.toList ++ rr.toList)).1
              (minOn a (rv, rp) (rl.toList ++ rr.toList)).2
              (removeAux (minOn a (rv, rp) (rl.toList ++ rr.toList)).2 (!a)
                (.node rl rv rp rr)).1, true) := by
          rw [removeAux.eq_def]
          simp only [if_pos hp]
        have hmm := minOn_mem a (rv, rp) (rl.toList ++ rr.toList)
        obtain ⟨w, hw_mem, hw_true, hw_perm⟩ :=
          ihr hir hndr (snd_mem_pts hmm)
        have hw_eq : w = (minOn a (rv, rp) (rl.toList ++ rr.toList)).1 :=
          eq_of_mem_of_nodup_snd hndr hw_mem hmm
        rw [hw_eq] at hw_perm
        refine ⟨v', by simp [hp], by rw [hres], ?_⟩
        rw [hres]
        simp only [toList_node]
        rw [hp]
        exact ((hw_perm.append_left l.toList).trans List.perm_middle).cons (v', p')
      | nil =>
        cases l with
        | node ll lv lp lr =>
          have hres : removeAux p a (KDTree.node (KDTree.node ll lv lp lr) v' p' .nil) =
              (.node .nil (minOn a (lv, lp) (ll.toList ++ lr.toList)).1
                (minOn a (lv, lp) (ll.toList ++ lr.toList)).2
                (removeAux (minOn a (lv, lp) (ll.toList ++ lr.toList)).2 (!a)
                  (.node ll lv lp lr)).1, true) := by
            rw [removeAux.eq_def]
            simp only [if_pos hp]
          have hmm := minOn_mem a (lv, lp) (ll.toList ++ lr.toList)
          obtain ⟨w, hw_mem, hw_true, hw_perm⟩ :=
            ihl hil hndl (snd_mem_pts hmm)
          have hw_eq : w = (minOn a (lv, lp) (ll.toList ++ lr.toList)).1 :=
            eq_of_mem_of_nodup_snd hndl hw_mem hmm
          rw [hw_eq] at hw_perm
          refine ⟨v', by simp [hp], by rw [hres], ?_⟩
          rw [hres]
          simp only [toList_node, toList_nil, List.append_nil, List.nil_append]
          rw [hp]
          exact hw_perm.cons (v', p')
        | nil =>
          have hres : removeAux p a (KDTree.node .nil v' p' .nil) = (.nil, true) := by
            rw [removeAux.eq_def]
            simp only [if_pos hp]
          refine ⟨v', by simp [hp], by rw [hres], ?_⟩
          rw [hres, hp]
          simp
    · have hpl_or : p ∈ pts l ∨ p ∈ pts r := by
        simp only [pts_node, List.mem_cons, List.mem_append] at hm
        rcases hm with hm | hm | hm
        · exact absurd hm hp
        · exact Or.inl hm
        · exact Or.inr hm
      by_cases hlt : p.coord a < p'.coord a
      · have hpl : p ∈ pts l := by
          rcases hpl_or with hpl | hpr
          · exact hpl
          · exact absurd hlt (not_lt.mpr (hbr p hpr))
        have hres : removeAux p a (KDTree.node l v' p' r) =
            (.node (removeAux p (!a) l).1 v' p' r, (removeAux p (!a) l).2) := by
          rw [removeAux.eq_def]
          simp only [if_neg hp, if_pos hlt]
        obtain ⟨v, hv_mem, hv_true, hv_perm⟩ := ihl hil hndl hpl
        refine ⟨v, by simp [hv_mem], by rw [hres]; exact hv_true, ?_⟩
        rw [hres]
        simp only [toList_node]
        exact perm_cons_append_left hv_perm
      · have hpr : p ∈ pts r := by
          rcases hpl_or with hpl | hpr
          · exact absurd (hbl p hpl) hlt
          · exact hpr
        have hres : removeAux p a (KDTree.node l v' p' r) =
            (.node l v' p' (removeAux p (!a) r).1, (removeAux p (!a) r).2) := by
          rw [removeAux.eq_def]
          simp only [if_neg hp, if_neg hlt]
        obtain ⟨v, hv_mem, hv_true, hv_perm⟩ := ihr hir hndr hpr
        refine ⟨v, by simp [hv_mem], by rw [hres]; exact hv_true, ?_⟩
        rw [hres]
        simp only [toList_node]
        exact perm_cons_append_right hv_perm

/-! Nearest-neighbour search: the branch-and-bound result is a stored pair
at minimum distance, never worse than the incoming candidate. -/

theorem closestAux_spec (q : Point) (nm : Norm) :
    ∀ {a : Bool} {t : KDTree V} (best : V × Point), Inv a t →
      (closestAux q nm a t best = best ∨ closestAux q nm a t best ∈ t.toList) ∧
      dist nm q (closestAux q nm a t best).2 ≤ dist nm q best.2 ∧
      ∀ u ∈ t.toList, dist nm q (closestAux q nm a t best).2 ≤ dist nm q u.2 := by
  intro a t
  induction t generalizing a with
  | nil =>
    intro best _
    exact ⟨Or.inl rfl, le_refl _, by simp⟩
  | node l v p r ihl ihr =>
    intro best h
    obtain ⟨hbl, hbr, hil, hir⟩ := h
    by_cases hq : q.coord a < p.coord a
    · have hres : closestAux q nm a (KDTree.node l v p r) best =
          if planeDist nm (q.coord a - p.coord a) <
              dist nm q (closestAux q nm (!a) l
                (if dist nm q p < dist nm q best.2 then (v, p) else best)).2 then
            closestAux q nm (!a) r (closestAux q nm (!a) l
              (if dist nm q p < dist nm q best.2 then (v, p) else best))
          else
            closestAux q nm (!a) l
              (if dist nm q p < dist nm q best.2 then (v, p) else best) := by
        rw [closestAux.eq_def]
        simp only [if_pos hq]
      set b1 := if dist nm q p < dist nm q best.2 then (v, p) else best with hb1_def
      have hb1_mem : b1 = (v, p) ∨ b1 = best := by
        rw [hb1_def]
        split
        · exact Or.inl rfl
        · exact Or.inr rfl
      have hb1_best : dist nm q b1.2 ≤ dist nm q best.2 := by
        rw [hb1_def]
        split
        · next hc => exact le_of_lt hc
        · exact le_refl _
      have hb1_node : dist nm q b1.2 ≤ dist nm q p := by
        rw [hb1_def]
        split
        · exact le_refl _
        · next hc => exact not_lt.mp hc
      set b2 := closestAux q nm (!a) l b1 with hb2_def
      obtain ⟨P1l, P2l, P3l⟩ := ihl b1 hil
      rw [← hb2_def] at P1l P2l P3l
      by_cases hpp : planeDist nm (q.coord a - p.coord a) < dist nm q b2.2
      · set b3 := closestAux q nm (!a) r b2 with hb3_def
        obtain ⟨P1r, P2r, P3r⟩ := ihr b2 hir
        rw [← hb3_def] at P1r P2r P3r
        rw [hres, if_pos hpp]
        refine ⟨?_, le_trans P2r (le_trans P2l hb1_best), ?_⟩
        · rcases P1r with h3 | h3
          · rcases P1l with h2 | h2
            · rcases hb1_mem with h1 | h1
              · right
                rw [h3, h2, h1]
                simp
              · left
                rw [h3, h2, h1]
            · right
              rw [h3]
              exact List.mem_cons_of_mem _ (List.mem_append_left _ h2)
          · right
            exact List.mem_cons_of_mem _ (List.mem_append_right _ h3)
        · intro u hu
          rcases List.mem_cons.mp hu with hu | hu
          · rw [hu]
            exact le_trans P2r (le_trans P2l hb1_node)
          · rcases List.mem_append.mp hu with hu | hu
            · exact le_trans P2r (P3l u hu)
            · exact P3r u hu
      · rw [hres, if_neg hpp]
        refine ⟨?_, le_trans P2l hb1_best, ?_⟩
        · rcases P1l with h2 | h2
          · rcases hb1_mem with h1 | h1
            · right
              rw [h2, h1]
              simp
            · left
              rw [h2, h1]
          · right
            exact List.mem_cons_of_mem _ (List.mem_append_left _ h2)
        · intro u hu
          rcases List.mem_cons.mp hu with hu | hu
          · rw [hu]
            exact le_trans P2l hb1_node
          · rcases List.mem_append.mp hu with hu | hu
            · exact P3l u hu
            · have hs : p.coord a ≤ u.2.coord a := hbr u.2 (snd_mem_pts hu)
              have habs : |q.coord a - p.coord a| ≤ |q.coord a - u.2.coord a| := by
                rw [abs_of_nonpos (by omega), abs_of_nonpos (by omega)]
                omega
              exact le_trans (not_lt.mp hpp)
                (le_trans (planeDist_mono nm habs) (planeDist_le_dist nm q u.2 a))
    · have hres : closestAux q nm a (KDTree.node l v p r) best =
          if planeDist nm (q.coord a - p.coord a) <
              dist nm q (closestAux q nm (!a) r
                (if dist nm q p < dist nm q best.2 then (v, p) else best)).2 then
            closestAux q nm (!a) l (closestAux q nm (!a) r
              (if dist nm q p < dist nm q best.2 then (v, p) else best))
          else
            closestAux q nm (!a) r
              (if dist nm q p < dist nm q best.2 then (v, p) else best) := by
        rw [closestAux.eq_def]
        simp only [if_neg hq]
      set b1 := if dist nm q p < dist nm q best.2 then (v, p) else best with hb1_def
      have hb1_mem : b1 = (v, p) ∨ b1 = best := by
        rw [hb1_def]
        split
        · exact Or.inl rfl
        · exact Or.inr rfl
      have hb1_best : dist nm q b1.2 ≤ dist nm q best.2 := by
        rw [hb1_def]
        split
        · next hc => exact le_of_lt hc
        · exact le_refl _
      have hb1_node : dist nm q b1.2 ≤ dist nm q p := by
        rw [hb1_def]
        split
        · exact le_refl _
        · next hc => exact not_lt.mp hc
      set b2 := closestAux q nm (!a) r b1 with hb2_def
      obtain ⟨P1r, P2r, P3r⟩ := ihr b1 hir
      rw [← hb2_def] at P1r P2r P3r
      by_cases hpp : planeDist nm (q.coord a - p.coord a) < dist nm q b2.2
      · set b3 := closestAux q nm (!a) l b2 with hb3_def
        obtain ⟨P1l, P2l, P3l⟩ := ihl b2 hil
        rw [← hb3_def] at P1l P2l P3l
        rw [hres, if_pos hpp]
        refine ⟨?_, le_trans P2l (le_trans P2r hb1_best), ?_⟩
        · rcases P1l with h3 | h3
          · rcases P1r with h2 | h2
            · rcases hb1_mem with h1 | h1
              · right
                rw [h3, h2, h1]
                simp
              · left
                rw [h3, h2, h1]
            · right
              rw [h3]
              exact List.mem_cons_of_mem _ (List.mem_append_right _ h2)
          · right
            exact List.mem_cons_of_mem _ (List.mem_append_left _ h3)
        · intro u hu
          rcases List.mem_cons.mp hu with hu | hu
          · rw [hu]
            exact le_trans P2l (le_trans P2r hb1_node)
          · rcases List.mem_append.mp hu with hu | hu
            · exact P3l u hu
            · exact le_trans P2l (P3r u hu)
      · rw [hres, if_neg hpp]
        refine ⟨?_, le_trans P2r hb1_best, ?_⟩
        · rcases P1r with h2 | h2
          · rcases hb1_mem with h1 | h1
            · right
              rw [h2, h1]
              simp
            · left
              rw [h2, h1]
          · right
            exact List.mem_cons_of_mem _ (List.mem_append_right _ h2)
        · intro u hu
          rcases List.mem_cons.mp hu with hu | hu
          · rw [hu]
            exact le_trans P2r hb1_node
          · rcases List.mem_append.mp hu with hu | hu
            · have hs : u.2.coord a < p.coord a := hbl u.2 (snd_mem_pts hu)
              have hqp : p.coord a ≤ q.coord a := not_lt.mp hq
              have habs : |q.coord a - p.coord a| ≤ |q.coord a - u.2.coord a| := by
                rw [abs_of_nonneg (by omega), abs_of_nonneg (by omega)]
                omega
              exact le_trans (not_lt.mp hpp)
                (le_trans (planeDist_mono nm habs) (planeDist_le_dist nm q u.2 a))
            · exact P3r u hu

/-! Rebuild lemmas: median reconstruction preserves content and restores the
partition invariant. -/

theorem insSorted_perm (a : Bool) (u : V × Point) (xs : List (V × Point)) :
    List.Perm (insSorted a u xs) (u :: xs) := by
  induction xs with
  | nil => exact List.Perm.refl _
  | cons x xs ih =>
    simp only [insSorted]
    split
    · exact List.Perm.refl _
    · exact (ih.cons x).trans (List.Perm.swap u x xs)

theorem sortOn_perm (a : Bool) (xs : List (V × Point)) :
    List.Perm (sortOn a xs) xs := by
  induction xs with
  | nil => exact List.Perm.refl _
  | cons x xs ih => exact (insSorted_perm a x (sortOn a xs)).trans (ih.cons x)

theorem getD_cons_eraseIdx_perm {α : Type} :
    ∀ (l : List α) (i : Nat) (d : α), i < l.length →
      List.Perm l (l.getD i d :: l.eraseIdx i) := by
  intro l
  induction l with
  | nil =>
    intro i d hi
    simp at hi
  | cons x xs ih =>
    intro i d hi
    cases i with
    | zero => exact List.Perm.refl _
    | succ i =>
      simp only [List.getD_cons_succ, List.eraseIdx_cons_succ]
      simp only [List.length_cons, Nat.succ_lt_succ_iff] at hi
      exact ((ih i d hi).cons x).trans (List.Perm.swap (xs.getD i d) x _)

theorem build_perm_aux :
    ∀ (n : Nat) (a : Bool) (xs : List (V × Point)), xs.length ≤ n →
      List.Perm (build a xs).toList xs := by
  intro n
  induction n with
  | zero =>
    intro a xs hlen
    have hx : xs = [] := List.eq_nil_of_length_eq_zero (Nat.le_zero.mp hlen)
    subst hx
    rw [build.eq_def]
    simp [sortOn]
  | succ n ih =>
    intro a xs hlen
    rw [build.eq_def]
    split
    · next heq =>
      have hx : xs = [] := by
        have hl := length_sortOn a xs
        rw [heq] at hl
        exact List.eq_nil_of_length_eq_zero hl.symm
      rw [hx]
      exact List.Perm.refl _
    · next y ys heq =>
      have hxs_len : xs.length = ys.length + 1 := by
        have hl := length_sortOn a xs
        rw [heq] at hl
        simpa using hl.symm
      have hfl : (((y :: ys).eraseIdx ((ys.length + 1) / 2)).filter
          (fun u => decide (u.2.coord a <
            ((y :: ys).getD ((ys.length + 1) / 2) y).2.coord a))).length ≤ n := by
        have := length_filter_eraseIdx_lt
          (fun u => decide (u.2.coord a <
            ((y :: ys).getD ((ys.length + 1) / 2) y).2.coord a)) y ys
        omega
      have hfr : (((y :: ys).eraseIdx ((ys.length + 1) / 2)).filter
          (fun u => !decide (u.2.coord a <
            ((y :: ys).getD ((ys.length + 1) / 2) y).2.coord a))).length ≤ n := by
        have := length_filter_eraseIdx_lt
          (fun u => !decide (u.2.coord a <
            ((y :: ys).getD ((ys.length + 1) / 2) y).2.coord a)) y ys
        omega
      have hpl := ih (!a) _ hfl
      have hpr := ih (!a) _ hfr
      have hm : (ys.length + 1) / 2 < (y :: ys).length := by
        simp only [List.length_cons]
        omega
      have hfilters := List.filter_append_perm
        (fun u => decide (u.2.coord a <
          ((y :: ys).getD ((ys.length + 1) / 2) y).2.coord a))
        ((y :: ys).eraseIdx ((ys.length + 1) / 2))
      have hsplit := (getD_cons_eraseIdx_perm (y :: ys) ((ys.length + 1) / 2) y hm).symm
      simp only [toList_node]
      refine (((hpl.append hpr).trans hfilters).cons _).trans ?_
      exact hsplit.trans (heq ▸ sortOn_perm a xs)

theorem build_perm (a : Bool) (xs : List (V × Point)) :
    List.Perm (build a xs).toList xs :=
  build_perm_aux xs.length a xs (le_refl _)

theorem build_inv_aux :
    ∀ (n : Nat) (a : Bool) (xs : List (V × Point)), xs.length ≤ n →
      Inv a (build a xs) := by
  intro n
  induction n with
  | zero =>
    intro a xs hlen
    have hx : xs = [] := List.eq_nil_of_length_eq_zero (Nat.le_zero.mp hlen)
    subst hx
    rw [build.eq_def]
    simp only [sortOn]
    exact trivial
  | succ n ih =>
    intro a xs hlen
    rw [build.eq_def]
    split
    · exact trivial
    · next y ys heq =>
      have hxs_len : xs.length = ys.length + 1 := by
        have hl := length_sortOn a xs
        rw [heq] at hl
        simpa using hl.symm
      have hfl : (((y :: ys).eraseIdx ((ys.length + 1) / 2)).filter
          (fun u => decide (u.2.coord a <
            ((y :: ys).getD ((ys.length + 1) / 2) y).2.coord a))).length ≤ n := by
        have := length_filter_eraseIdx_lt
          (fun u => decide (u.2.coord a <
            ((y :: ys).getD ((ys.length + 1) / 2) y).2.coord a)) y ys
        omega
      have hfr : (((y :: ys).eraseIdx ((ys.length + 1) / 2)).filter
          (fun u => !decide (u.2.coord a <
            ((y :: ys).getD ((ys.length + 1) / 2) y).2.coord a))).length ≤ n := by
        have := length_filter_eraseIdx_lt
          (fun u => !decide (u.2.coord a <
            ((y :: ys).getD ((ys.length + 1) / 2) y).2.coord a)) y ys
        omega
      refine ⟨?_, ?_, ih (!a) _ hfl, ih (!a) _ hfr⟩
      · intro s hs
        obtain ⟨u, hu, rfl⟩ := mem_pts_iff.mp hs
        have hu' := (build_perm (!a) _).mem_iff.mp hu
        have := List.mem_filter.mp hu'
        exact of_decide_eq_true this.2
      · intro s hs
        obtain ⟨u, hu, rfl⟩ := mem_pts_iff.mp hs
        have hu' := (build_perm (!a) _).mem_iff.mp hu
        have hb := (List.mem_filter.mp hu').2
        simp only [Bool.not_eq_eq_eq_not, Bool.not_true, decide_eq_false_iff_not] at hb
        exact not_lt.mp hb

theorem build_inv (a : Bool) (xs : List (V × Point)) : Inv a (build a xs) :=
  build_inv_aux xs.length a xs (le_refl _)

/-! State-level preservation of the full structural invariant. -/

theorem good_new : Good (KD.new : KD V) :=
  ⟨trivial, List.nodup_nil, rfl⟩

theorem insert_fst (s : KD V) (v : V) (p : Point) :
    (s.insert v p).1 = ⟨(insertAux v p true s.root).1,
      if (insertAux v p true s.root).2 then s.count + 1 else s.count⟩ := rfl

theorem remove_fst (s : KD V) (p : Point) :
    (s.remove p).1 = ⟨(removeAux p true s.root).1,
      if (removeAux p true s.root).2 then s.count - 1 else s.count⟩ := rfl

theorem good_insert {s : KD V} (v : V) (p : Point) (h : Good s) :
    Good (s.insert v p).1 := by
  obtain ⟨hi, hnd, hc⟩ := h
  by_cases hm : p ∈ pts s.root
  · rw [insert_fst, insertAux_mem v hi hm]
    exact ⟨hi, hnd, hc⟩
  · obtain ⟨hb, hperm⟩ := @insertAux_not_mem V p true s.root v hm
    have hperm_pts := hperm.map Prod.snd
    rw [insert_fst, hb]
    refine ⟨insertAux_inv v p hi, ?_, ?_⟩
    · exact hperm_pts.nodup_iff.mpr (List.nodup_cons.mpr ⟨hm, hnd⟩)
    · simp only [if_pos]
      rw [hc, hperm.length_eq]
      simp
  
theorem good_remove {s : KD V} (p : Point) (h : Good s) :
    Good (s.remove p).1 := by
  obtain ⟨hi, hnd, hc⟩ := h
  by_cases hm : p ∈ pts s.root
  · obtain ⟨v, hv_mem, hb, hperm⟩ := removeAux_mem hi hnd hm
    have hperm_pts := hperm.map Prod.snd
    rw [remove_fst, hb]
    refine ⟨removeAux_inv p hi, ?_, ?_⟩
    · exact (List.nodup_cons.mp (hperm_pts.nodup_iff.mp hnd)).2
    · simp only [if_pos]
      rw [hc, hperm.length_eq]
      simp
  · rw [remove_fst, removeAux_not_mem hm]
    exact ⟨hi, hnd, hc⟩

theorem good_rebalance {s : KD V} (h : Good s) : Good s.rebalance := by
  obtain ⟨hi, hnd, hc⟩ := h
  have hperm := build_perm true s.root.toList
  refine ⟨build_inv true s.root.toList, ?_, ?_⟩
  · exact ((hperm.map Prod.snd).nodup_iff).mpr hnd
  · rw [show s.rebalance.count = s.count from rfl, hc]
    exact (hperm.length_eq).symm

theorem good_clear (s : KD V) : Good s.clear :=
  ⟨trivial, List.nodup_nil, rfl⟩

theorem good_pop {s : KD V} (q : Point) (nm : Norm) (h : Good s) :
    Good (s.pop_closest q nm).1 := by
  unfold KD.pop_closest
  cases hfc : s.find_closest q nm with
  | none => exact h
  | some u => exact good_remove u.2 h

theorem reachable_good {s : KD V} (h : Reachable s) : Good s := by
  induction h with
  | init => exact good_new
  | insert s v p _ ih => exact good_insert v p ih
  | remove s p _ ih => exact good_remove p ih
  | pop s q nm _ ih => exact good_pop q nm ih
  | rebalance s _ ih => exact good_rebalance ih
  | clear s _ _ => exact good_clear s

/-! State-level characterisation of exact lookup. -/

theorem find_iff {s : KD V} (h : Good s) {v : V} {p : Point} :
    s.find p = some (v, p) ↔ (v, p) ∈ s.root.toList := by
  constructor
  · intro hf
    exact (findAux_some hf).2
  · intro hm
    exact findAux_value h.1 h.2.1 hm

theorem find_shape {s : KD V} {u : V × Point} {p : Point}
    (hf : s.find p = some u) : u.2 = p := by
  obtain ⟨v', p'⟩ := u
  exact (findAux_some hf).1

theorem find_not_mem {s : KD V} {p : Point} (hm : p ∉ pts s.root) :
    s.find p = none :=
  findAux_not_mem hm

/-! Further state-level helpers used by the claims. -/

theorem find_def (s : KD V) (p : Point) : s.find p = findAux p true s.root := rfl

theorem remove_snd (s : KD V) (p : Point) :
    (s.remove p).2 = (removeAux p true s.root).2 := rfl

theorem insert_snd (s : KD V) (v : V) (p : Point) :
    (s.insert v p).2 = (insertAux v p true s.root).2 := rfl

theorem find_closest_mem {s : KD V} {q : Point} {nm : Norm} {u : V × Point}
    (h : Inv true s.root) (hfc : s.find_closest q nm = some u) :
    u ∈ s.root.toList := by
  unfold KD.find_closest at hfc
  cases hr : s.root with
  | nil =>
    rw [hr] at hfc
    exact absurd hfc (by simp)
  | node l v p r =>
    rw [hr] at hfc h
    have hfc' : some (closestAux q nm true (KDTree.node l v p r) (v, p)) = some u := hfc
    have hu : closestAux q nm true (KDTree.node l v p r) (v, p) = u :=
      Option.some.inj hfc'
    obtain ⟨P1, _, _⟩ := closestAux_spec q nm (v, p) h
    rw [hu] at P1
    rcases P1 with P1 | P1
    · rw [P1]
      simp
    · exact P1

theorem find_preserved_remove {s : KD V} (hg : Good s) {v : V} {p q : Point}
    (hf : s.find p = some (v, p)) (hne : q ≠ p) :
    (s.remove q).1.find p = some (v, p) := by
  have hmem := (find_iff hg).mp hf
  by_cases hmq : q ∈ pts s.root
  · obtain ⟨vq, hvq_mem, hb, hperm⟩ := removeAux_mem hg.1 hg.2.1 hmq
    apply (find_iff (good_remove q hg)).mpr
    have hmem' := hperm.mem_iff.mp hmem
    rcases List.mem_cons.mp hmem' with heq | hmem'
    · exact absurd (congrArg Prod.snd heq).symm hne
    · exact hmem'
  · rw [remove_fst, removeAux_not_mem hmq]
    exact hf

theorem not_mem_after_remove {s : KD V} (hg : Good s) {p : Point}
    (hm : p ∈ pts s.root) : p ∉ pts (s.remove p).1.root := by
  obtain ⟨v, hv_mem, hb, hperm⟩ := removeAux_mem hg.1 hg.2.1 hm
  have hperm_pts := hperm.map Prod.snd
  have hnd' := hperm_pts.nodup_iff.mp hg.2.1
  rw [remove_fst]
  exact (List.nodup_cons.mp hnd').1

/-- Claim C2: re-inserting an already-stored point returns false and leaves
the tree state (contents, structure and size) completely unchanged. -/
theorem claim_C2_insert_duplicate (s : KD V) (v : V) (p : Point)
    (h : Reachable s) (hm : p ∈ pts s.root) :
    s.insert v p = (s, false) := by
  have hg := reachable_good h
  have heq := insertAux_mem v hg.1 hm
  show (⟨(insertAux v p true s.root).1, _⟩, (insertAux v p true s.root).2) = (s, false)
  rw [heq]
  rfl

theorem claim_C2_witness :
    ((KD.new.insert (10 : Nat) ⟨1, 2⟩).1.insert 30 ⟨1, 2⟩) =
      ((KD.new.insert (10 : Nat) ⟨1, 2⟩).1, false) :=
  claim_C2_insert_duplicate _ 30 ⟨1, 2⟩
    (Reachable.insert _ _ _ Reachable.init) (by decide)

/-- Claim C3: after every sequence of insert, remove, pop_closest, rebalance
and clear operations the axis-alternating partition invariant holds at every
node: left-subtree points are strictly below, right-subtree points at or
above, the node's coordinate on its depth-determined split axis. -/
theorem claim_C3_partition_invariant (s : KD V) (h : Reachable s) :
    Inv true s.root :=
  (reachable_good h).1

theorem claim_C3_witness :
    Inv true (((((KD.new.insert (1 : Nat) ⟨0, 0⟩).1.insert 2 ⟨1, 1⟩).1.insert 3
      ⟨5, 5⟩).1.remove ⟨0, 0⟩).1.root) :=
  claim_C3_partition_invariant _
    (Reachable.remove _ _ (Reachable.insert _ _ _
      (Reachable.insert _ _ _ (Reachable.insert _ _ _ Reachable.init))))

/-- Claim C5: after every operation sequence, size() equals the number of
pairs produced by a full iteration, and empty() is true exactly when that
number is zero. -/
theorem claim_C5_size_consistency (s : KD V) (h : Reachable s) :
    s.size = s.iterate.length ∧ (s.empty = true ↔ s.iterate.length = 0) := by
  have hc := (reachable_good h).2.2
  refine ⟨hc, ?_⟩
  show (s.count == 0) = true ↔ s.root.toList.length = 0
  rw [hc]
  simp

theorem claim_C5_witness :
    ((((KD.new.insert (1 : Nat) ⟨1, 2⟩).1.insert 2 ⟨3, 4⟩).1.remove ⟨1, 2⟩).1.size =
        (((KD.new.insert (1 : Nat) ⟨1, 2⟩).1.insert 2 ⟨3, 4⟩).1.remove
          ⟨1, 2⟩).1.iterate.length ∧
      ((((KD.new.insert (1 : Nat) ⟨1, 2⟩).1.insert 2 ⟨3, 4⟩).1.remove ⟨1, 2⟩).1.empty = true ↔
        (((KD.new.insert (1 : Nat) ⟨1, 2⟩).1.insert 2 ⟨3, 4⟩).1.remove
          ⟨1, 2⟩).1.iterate.length = 0)) :=
  claim_C5_size_consistency _
    (Reachable.remove _ _ (Reachable.insert _ _ _
      (Reachable.insert _ _ _ Reachable.init)))

/-- Claim C8: find, exists and remove on an absent point report absence (none
or false) and leave the tree unchanged, and find_closest and pop_closest on
an empty tree return nothing; none of these operations can fail (all are
total functions in the model). -/
theorem claim_C8_absence (s : KD V) (p q : Point) (nm : Norm)
    (hm : p ∉ pts s.root) :
    s.find p = none ∧ s.existsPt p = false ∧ s.remove p = (s, false) ∧
      (s.root = .nil → s.find_closest q nm = none ∧ s.pop_closest q nm = (s, none)) := by
  have hfind : s.find p = none := findAux_not_mem hm
  refine ⟨hfind, ?_, ?_, ?_⟩
  · show (s.find p).isSome = false
    rw [hfind]
    rfl
  · show (⟨(removeAux p true s.root).1, _⟩, (removeAux p true s.root).2) = (s, false)
    rw [removeAux_not_mem hm]
    rfl
  · intro hnil
    constructor
    · show (match s.root with
        | .nil => none
        | .node l v pt r => some (closestAux q nm true (.node l v pt r) (v, pt))) = none
      rw [hnil]
    · unfold KD.pop_closest
      have : s.find_closest q nm = none := by
        show (match s.root with
          | .nil => none
          | .node l v pt r => some (closestAux q nm true (.node l v pt r) (v, pt))) = none
        rw [hnil]
      rw [this]

theorem claim_C8_witness :
    ((KD.new : KD Nat).find ⟨7, 7⟩ = none ∧
      (KD.new : KD Nat).existsPt ⟨7, 7⟩ = false ∧
      (KD.new : KD Nat).remove ⟨7, 7⟩ = (KD.new, false) ∧
      ((KD.new : KD Nat).root = .nil →
        (KD.new : KD Nat).find_closest ⟨0, 0⟩ Norm.L2 = none ∧
          (KD.new : KD Nat).pop_closest ⟨0, 0⟩ Norm.L2 = (KD.new, none))) :=
  claim_C8_absence (KD.new : KD Nat) ⟨7, 7⟩ ⟨0, 0⟩ Norm.L2 (by decide)

/-- Claim C9: rebalance() preserves the stored contents exactly — iterating
after it yields a permutation (equal multiset) of the pairs iterated before,
and size() is unchanged. -/
theorem claim_C9_rebalance_content (s : KD V) :
    List.Perm s.rebalance.iterate s.iterate ∧ s.rebalance.size = s.size :=
  ⟨build_perm true s.root.toList, rfl⟩

/-- Claim C10: every accepted call form for a point (pair, sequence, explicit
Point, separate coordinates) with equal coordinates produces identical
results and identical tree states in every point-taking operation. -/
theorem claim_C10_point_forms (s : KD V) (v : V) (g h : PointArg) (nm : Norm)
    (heq : g.toPoint = h.toPoint) :
    s.insertA v g = s.insertA v h ∧ s.findA g = s.findA h ∧
      s.existsA g = s.existsA h ∧ s.removeA g = s.removeA h ∧
      s.find_closestA g nm = s.find_closestA h nm ∧
      s.pop_closestA g nm = s.pop_closestA h nm := by
  unfold KD.insertA KD.findA KD.existsA KD.removeA KD.find_closestA KD.pop_closestA
  rw [heq]
  exact ⟨rfl, rfl, rfl, rfl, rfl, rfl⟩

theorem claim_C10_witness :
    ((KD.new.insert (5 : Nat) ⟨9, 9⟩).1.insertA 7 (PointArg.pair 1 2) =
        (KD.new.insert (5 : Nat) ⟨9, 9⟩).1.insertA 7 (PointArg.pt ⟨1, 2⟩) ∧
      (KD.new.insert (5 : Nat) ⟨9, 9⟩).1.findA (PointArg.pair 1 2) =
        (KD.new.insert (5 : Nat) ⟨9, 9⟩).1.findA (PointArg.pt ⟨1, 2⟩) ∧
      (KD.new.insert (5 : Nat) ⟨9, 9⟩).1.existsA (PointArg.pair 1 2) =
        (KD.new.insert (5 : Nat) ⟨9, 9⟩).1.existsA (PointArg.pt ⟨1, 2⟩) ∧
      (KD.new.insert (5 : Nat) ⟨9, 9⟩).1.removeA (PointArg.pair 1 2) =
        (KD.new.insert (5 : Nat) ⟨9, 9⟩).1.removeA (PointArg.pt ⟨1, 2⟩) ∧
      (KD.new.insert (5 : Nat) ⟨9, 9⟩).1.find_closestA (PointArg.pair 1 2) Norm.L1 =
        (KD.new.insert (5 : Nat) ⟨9, 9⟩).1.find_closestA (PointArg.pt ⟨1, 2⟩) Norm.L1 ∧
      (KD.new.insert (5 : Nat) ⟨9, 9⟩).1.pop_closestA (PointArg.pair 1 2) Norm.L1 =
        (KD.new.insert (5 : Nat) ⟨9, 9⟩).1.pop_closestA (PointArg.pt ⟨1, 2⟩) Norm.L1) :=
  claim_C10_point_forms _ 7 (PointArg.pair 1 2) (PointArg.pt ⟨1, 2⟩) Norm.L1 rfl

/-- Example tree state used by several witnesses: the three-point tree of
the repository's nearest-neighbour test. -/
def exTree3 : KD Nat :=
  (((KD.new.insert 1 ⟨0, 0⟩).1.insert 2 ⟨1, 1⟩).1.insert 3 ⟨5, 5⟩).1

theorem exTree3_reachable : Reachable exTree3 :=
  Reachable.insert _ _ _ (Reachable.insert _ _ _
    (Reachable.insert _ _ _ Reachable.init))

/-- Example tree state used by several witnesses: the two-point tree of the
repository's find test. -/
def exTree2 : KD Nat :=
  ((KD.new.insert 100 ⟨1, 2⟩).1.insert 200 ⟨3, 4⟩).1

theorem exTree2_reachable : Reachable exTree2 :=
  Reachable.insert _ _ _ (Reachable.insert _ _ _ Reachable.init)

/-- Example subtree used by the C7 witness. -/
def exLeftSub : KDTree Nat := KDTree.node .nil 3 ⟨1, 5⟩ .nil

/-- Claim C1: for every tree and query point, find_closest under any of the
L1, L2 and Linf metrics returns a stored (value, point) pair whose distance
to the query equals the minimum over all stored points of that distance (the
brute-force scan oracle); on a non-empty tree it always returns some pair. -/
theorem claim_C1_find_closest_correct (s : KD V) (q : Point) (nm : Norm)
    (h : Reachable s) (hne : s.root ≠ .nil) :
    ∃ u : V × Point, s.find_closest q nm = some u ∧ u ∈ s.iterate ∧
      ∀ w ∈ s.iterate, dist nm q u.2 ≤ dist nm q w.2 := by
  have hg := reachable_good h
  cases hr : s.root with
  | nil => exact absurd hr hne
  | node l v p r =>
    have hi : Inv true (KDTree.node l v p r) := hr ▸ hg.1
    obtain ⟨P1, _, P3⟩ := closestAux_spec q nm (v, p) hi
    refine ⟨closestAux q nm true (KDTree.node l v p r) (v, p), ?_, ?_, ?_⟩
    · show (match s.root with
        | .nil => none
        | .node l v pt r => some (closestAux q nm true (.node l v pt r) (v, pt))) =
          some (closestAux q nm true (KDTree.node l v p r) (v, p))
      rw [hr]
    · show closestAux q nm true (KDTree.node l v p r) (v, p) ∈ s.root.toList
      rw [hr]
      rcases P1 with P1 | P1
      · rw [P1]
        simp
      · exact P1
    · intro w hw
      show dist nm q (closestAux q nm true (KDTree.node l v p r) (v, p)).2 ≤ dist nm q w.2
      apply P3
      show w ∈ (KDTree.node l v p r).toList
      rw [← hr]
      exact hw

theorem claim_C1_witness :
    ∃ u : Nat × Point, exTree3.find_closest ⟨1, 1⟩ Norm.L2 = some u ∧
      u ∈ exTree3.iterate ∧
      ∀ w ∈ exTree3.iterate, dist Norm.L2 ⟨1, 1⟩ u.2 ≤ dist Norm.L2 ⟨1, 1⟩ w.2 :=
  claim_C1_find_closest_correct exTree3 ⟨1, 1⟩ Norm.L2 exTree3_reachable (by decide)

/-- Claim C4: pop_closest returns exactly the pair find_closest would have
returned immediately before the call; afterwards that point is gone (exists
is false), the size has decreased by exactly one, and the remaining stored
pairs are exactly the previous ones minus the removed pair (a permutation
fact); on an empty tree it returns nothing and changes nothing. -/
theorem claim_C4_pop_closest (s : KD V) (q : Point) (nm : Norm)
    (h : Reachable s) :
    (s.pop_closest q nm).2 = s.find_closest q nm ∧
      (∀ u, s.find_closest q nm = some u →
        List.Perm s.iterate (u :: (s.pop_closest q nm).1.iterate) ∧
          (s.pop_closest q nm).1.existsPt u.2 = false ∧
          (s.pop_closest q nm).1.size + 1 = s.size) ∧
      (s.root = .nil → s.pop_closest q nm = (s, none)) := by
  have hg := reachable_good h
  refine ⟨?_, ?_, ?_⟩
  · unfold KD.pop_closest
    cases hfc : s.find_closest q nm with
    | none => rfl
    | some u => rfl
  · intro u hfc
    have hpop1 : (s.pop_closest q nm).1 = (s.remove u.2).1 := by
      unfold KD.pop_closest
      rw [hfc]
    have hmem : u ∈ s.root.toList := find_closest_mem hg.1 hfc
    have hmem_pts : u.2 ∈ pts s.root := snd_mem_pts hmem
    obtain ⟨w, hw_mem, hb, hperm⟩ := removeAux_mem hg.1 hg.2.1 hmem_pts
    have hw_eq : w = u.1 := by
      have : (u.1, u.2) ∈ s.root.toList := by
        simpa using hmem
      exact eq_of_mem_of_nodup_snd hg.2.1 hw_mem this
    rw [hw_eq] at hperm
    refine ⟨?_, ?_, ?_⟩
    · rw [hpop1, remove_fst]
      show List.Perm s.root.toList (u :: (removeAux u.2 true s.root).1.toList)
      simpa using hperm
    · rw [hpop1]
      have hnot := not_mem_after_remove hg hmem_pts
      show ((s.remove u.2).1.find u.2).isSome = false
      rw [show (s.remove u.2).1.find u.2 = findAux u.2 true (s.remove u.2).1.root from rfl]
      rw [findAux_not_mem hnot]
      rfl
    · rw [hpop1, remove_fst]
      show (if (removeAux u.2 true s.root).2 = true then s.count - 1 else s.count) + 1 =
        s.count
      rw [hb]
      have hlen := hperm.length_eq
      have hc := hg.2.2
      simp only [List.length_cons] at hlen
      simp only [if_pos]
      omega
  · intro hnil
    unfold KD.pop_closest
    have hfc : s.find_closest q nm = none := by
      show (match s.root with
        | .nil => none
        | .node l v pt r => some (closestAux q nm true (.node l v pt r) (v, pt))) = none
      rw [hnil]
    rw [hfc]

theorem claim_C4_witness :
    (exTree3.pop_closest ⟨1, 1⟩ Norm.L2).2 = exTree3.find_closest ⟨1, 1⟩ Norm.L2 ∧
      (∀ u, exTree3.find_closest ⟨1, 1⟩ Norm.L2 = some u →
        List.Perm exTree3.iterate
            (u :: (exTree3.pop_closest ⟨1, 1⟩ Norm.L2).1.iterate) ∧
          (exTree3.pop_closest ⟨1, 1⟩ Norm.L2).1.existsPt u.2 = false ∧
          (exTree3.pop_closest ⟨1, 1⟩ Norm.L2).1.size + 1 = exTree3.size) ∧
      (exTree3.root = .nil →
        exTree3.pop_closest ⟨1, 1⟩ Norm.L2 = (exTree3, none)) :=
  claim_C4_pop_closest exTree3 ⟨1, 1⟩ Norm.L2 exTree3_reachable

/-- Claim C6: a successfully inserted (value, point) pair is returned by
find(point) — and keeps being returned across mutations that do not remove
that point (inserting or removing other points, rebalancing, popping a
different point) — while after the point is removed, find(point) returns
nothing and exists(point) is false. -/
theorem claim_C6_roundtrip (s : KD V) (v w : V) (p q c : Point) (nm : Norm)
    (h : Reachable s) :
    ((s.insert v p).2 = true → (s.insert v p).1.find p = some (v, p)) ∧
      (s.find p = some (v, p) → q ≠ p → (s.insert w q).1.find p = some (v, p)) ∧
      (s.find p = some (v, p) → q ≠ p → (s.remove q).1.find p = some (v, p)) ∧
      (s.find p = some (v, p) → s.rebalance.find p = some (v, p)) ∧
      (s.find p = some (v, p) → (∀ x, (s.pop_closest c nm).2 ≠ some (x, p)) →
        (s.pop_closest c nm).1.find p = some (v, p)) ∧
      ((s.remove p).2 = true →
        (s.remove p).1.find p = none ∧ (s.remove p).1.existsPt p = false) := by
  have hg := reachable_good h
  refine ⟨?_, ?_, ?_, ?_, ?_, ?_⟩
  · intro hb
    by_cases hm : p ∈ pts s.root
    · rw [insert_snd, insertAux_mem v hg.1 hm] at hb
      exact absurd hb (by simp)
    · obtain ⟨_, hperm⟩ := @insertAux_not_mem V p true s.root v hm
      exact (find_iff (good_insert v p hg)).mpr
        (hperm.mem_iff.mpr (List.mem_cons_self _ _))
  · intro hf hne
    have hmem := (find_iff hg).mp hf
    by_cases hmq : q ∈ pts s.root
    · have heq := insertAux_mem w hg.1 hmq
      rw [find_def, insert_fst, heq]
      exact hf
    · obtain ⟨_, hperm⟩ := @insertAux_not_mem V q true s.root w hmq
      refine (find_iff (good_insert w q hg)).mpr
        (hperm.mem_iff.mpr (List.mem_cons_of_mem _ hmem))
  · intro hf hne
    exact find_preserved_remove hg hf hne
  · intro hf
    exact (find_iff (good_rebalance hg)).mpr
      ((build_perm true s.root.toList).mem_iff.mpr ((find_iff hg).mp hf))
  · intro hf hx
    cases hfc : s.find_closest c nm with
    | none =>
      have : (s.pop_closest c nm).1 = s := by
        unfold KD.pop_closest
        rw [hfc]
      rw [this]
      exact hf
    | some u =>
      have hpop1 : (s.pop_closest c nm).1 = (s.remove u.2).1 := by
        unfold KD.pop_closest
        rw [hfc]
      have hpop2 : (s.pop_closest c nm).2 = some u := by
        unfold KD.pop_closest
        rw [hfc]
      have hne : u.2 ≠ p := by
        intro hup
        apply hx u.1
        rw [hpop2]
        rw [show (u.1, p) = u from by rw [← hup]]
      rw [hpop1]
      exact find_preserved_remove hg hf hne
  · intro hb
    by_cases hm : p ∈ pts s.root
    · have hnot := not_mem_after_remove hg hm
      have hfind : (s.remove p).1.find p = none := by
        rw [show (s.remove p).1.find p = findAux p true (s.remove p).1.root from rfl]
        exact findAux_not_mem hnot
      refine ⟨hfind, ?_⟩
      show ((s.remove p).1.find p).isSome = false
      rw [hfind]
      rfl
    · rw [remove_snd, removeAux_not_mem hm] at hb
      exact absurd hb (by simp)

theorem claim_C6_witness :
    ((exTree2.insert 100 ⟨1, 2⟩).2 = true →
        (exTree2.insert 100 ⟨1, 2⟩).1.find ⟨1, 2⟩ = some (100, ⟨1, 2⟩)) ∧
      (exTree2.find ⟨1, 2⟩ = some (100, ⟨1, 2⟩) → (⟨3, 4⟩ : Point) ≠ ⟨1, 2⟩ →
        (exTree2.insert 300 ⟨3, 4⟩).1.find ⟨1, 2⟩ = some (100, ⟨1, 2⟩)) ∧
      (exTree2.find ⟨1, 2⟩ = some (100, ⟨1, 2⟩) → (⟨3, 4⟩ : Point) ≠ ⟨1, 2⟩ →
        (exTree2.remove ⟨3, 4⟩).1.find ⟨1, 2⟩ = some (100, ⟨1, 2⟩)) ∧
      (exTree2.find ⟨1, 2⟩ = some (100, ⟨1, 2⟩) →
        exTree2.rebalance.find ⟨1, 2⟩ = some (100, ⟨1, 2⟩)) ∧
      (exTree2.find ⟨1, 2⟩ = some (100, ⟨1, 2⟩) →
        (∀ x, (exTree2.pop_closest ⟨3, 4⟩ Norm.L2).2 ≠ some (x, ⟨1, 2⟩)) →
        (exTree2.pop_closest ⟨3, 4⟩ Norm.L2).1.find ⟨1, 2⟩ = some (100, ⟨1, 2⟩)) ∧
      ((exTree2.remove ⟨1, 2⟩).2 = true →
        (exTree2.remove ⟨1, 2⟩).1.find ⟨1, 2⟩ = none ∧
          (exTree2.remove ⟨1, 2⟩).1.existsPt ⟨1, 2⟩ = false) :=
  claim_C6_roundtrip exTree2 100 300 ⟨1, 2⟩ ⟨3, 4⟩ ⟨3, 4⟩ Norm.L2 exTree2_reachable

/-- Claim C7 counterexample: on the concrete tree with root (5,0) whose left
subtree holds (3,0) and (1,5) and whose right child is empty, deleting (5,0)
does not promote the left subtree's maximum x-node (3,0) as the claim
describes — and the tree the claimed maximum-promotion step would produce
violates the axis-alternating partition invariant (the point (1,5) with
x-coordinate 1 would sit in the right subtree of a root with x-coordinate 3),
so the claim is false as stated. -/
theorem claim_C7_counterexample :
    (removeAux (⟨5, 0⟩ : Point) true
        (KDTree.node (KDTree.node .nil (2 : Nat) ⟨3, 0⟩
          (KDTree.node .nil 3 ⟨1, 5⟩ .nil)) 1 ⟨5, 0⟩ .nil)).1 ≠
      removeLeftMaxStep true (KDTree.nil : KDTree Nat) 2 ⟨3, 0⟩
        (KDTree.node .nil 3 ⟨1, 5⟩ .nil) ∧
    ¬ Inv true (removeLeftMaxStep true (KDTree.nil : KDTree Nat) 2 ⟨3, 0⟩
        (KDTree.node .nil 3 ⟨1, 5⟩ .nil)) := by
  constructor
  · decide
  · decide

/-- Claim C7 amended: when remove(point) deletes a node N that has a left
child but no right child, the algorithm selects the node with the *minimum*
coordinate on N's split axis within N's left subtree, promotes its
(point, value) into N's slot, deletes that node's original location, and
reattaches the promoted node's former subtree as the right child of the new
local root; the resulting tree still satisfies the axis-alternating
partition invariant. -/
theorem claim_C7_remove_left_only (a : Bool) (ll : KDTree V) (lv : V)
    (lp : Point) (lr : KDTree V) (v : V) (p : Point)
    (h : Inv a (KDTree.node (KDTree.node ll lv lp lr) v p .nil)) :
    removeAux p a (KDTree.node (KDTree.node ll lv lp lr) v p .nil) =
      (.node .nil (minOn a (lv, lp) (ll.toList ++ lr.toList)).1
        (minOn a (lv, lp) (ll.toList ++ lr.toList)).2
        (removeAux (minOn a (lv, lp) (ll.toList ++ lr.toList)).2 (!a)
          (.node ll lv lp lr)).1, true) ∧
      (∀ u ∈ (KDTree.node ll lv lp lr).toList,
        (minOn a (lv, lp) (ll.toList ++ lr.toList)).2.coord a ≤ u.2.coord a) ∧
      Inv a (removeAux p a (KDTree.node (KDTree.node ll lv lp lr) v p .nil)).1 := by
  refine ⟨?_, minOn_le a (lv, lp) (ll.toList ++ lr.toList), removeAux_inv p h⟩
  rw [removeAux.eq_def]
  simp

theorem claim_C7_amended_witness :
    removeAux (⟨5, 0⟩ : Point) true
        (KDTree.node (KDTree.node KDTree.nil (2 : Nat) ⟨3, 0⟩ exLeftSub) 1
          ⟨5, 0⟩ KDTree.nil) =
      (KDTree.node KDTree.nil
        (minOn true ((2 : Nat), (⟨3, 0⟩ : Point))
          ((KDTree.nil : KDTree Nat).toList ++ exLeftSub.toList)).1
        (minOn true ((2 : Nat), (⟨3, 0⟩ : Point))
          ((KDTree.nil : KDTree Nat).toList ++ exLeftSub.toList)).2
        (removeAux (minOn true ((2 : Nat), (⟨3, 0⟩ : Point))
            ((KDTree.nil : KDTree Nat).toList ++ exLeftSub.toList)).2 (!true)
          (KDTree.node KDTree.nil 2 ⟨3, 0⟩ exLeftSub)).1, true) ∧
      (∀ u ∈ (KDTree.node KDTree.nil (2 : Nat) ⟨3, 0⟩ exLeftSub).toList,
        (minOn true ((2 : Nat), (⟨3, 0⟩ : Point))
          ((KDTree.nil : KDTree Nat).toList ++ exLeftSub.toList)).2.coord true ≤
          u.2.coord true) ∧
      Inv true (removeAux (⟨5, 0⟩ : Point) true
        (KDTree.node (KDTree.node KDTree.nil (2 : Nat) ⟨3, 0⟩ exLeftSub) 1
          ⟨5, 0⟩ KDTree.nil)).1 :=
  claim_C7_remove_left_only true KDTree.nil 2 ⟨3, 0⟩ exLeftSub 1 ⟨5, 0⟩ (by decide)

end Kdt

